import Mathlib

/-!
Verification of the duplicate-file scanner and resolver of
src/skills/file-organization/scripts/file_organizer.py
(the functions find_duplicates, _hash_file and remove_duplicates),
as a shallow embedding over an explicit filesystem snapshot.
-/

/-- Byte content of a file: one natural number per byte. -/
abbrev Bytes := List Nat

/-- Kind of a directory entry as yielded by the pathlib traversal.
Python pathlib yields symlinks themselves as entries (it does not recurse
through symlinked directories, but symlink entries do appear). -/
inductive EntryKind where
  | regular
  | symlinkToRegular
  | directory
  | otherKind
  deriving DecidableEq

/-- One entry yielded by directory.rglob, in traversal order.
The field statOk models whether the guarded stat() inside the loop body
succeeds, readOk whether open() and read() succeed; content is the byte
content of the followed target (for a symlink, the content of the file
it resolves to). The unguarded is_file() check that precedes the loop
body can itself raise; that outcome is carried by ScanEntry below, not
here. The model is a static snapshot: no concurrent mutation, so the
stat size equals content.length (the accepted race of the source is out
of scope). -/
structure FSEntry where
  path : String
  kind : EntryKind
  content : Bytes
  statOk : Bool
  readOk : Bool
  deriving DecidableEq

/-- The value Path.is_file returns when it returns: pathlib follows
symlinks, so it is true for a regular file and for a symlink resolving
to a regular file, and false for directories, broken symlinks and other
entry kinds (stat failures with errno ENOENT, ENOTDIR, EBADF or ELOOP
make it return false, and in a static snapshot those are exactly the
entries whose followed target is not a regular file). The call can
instead raise: pathlib re-raises every other stat error, e.g.
PermissionError; that raising path is modelled by pathIsFile below. -/
def FSEntry.is_file (e : FSEntry) : Bool :=
  match e.kind with
  | EntryKind.regular => true
  | EntryKind.symlinkToRegular => true
  | _ => false

/-- A filesystem as seen by one scan: whether listing the root directory
succeeds, and the entries the recursive traversal would yield, in
traversal order. -/
structure FileSystem where
  rootListable : Bool
  entries : List FSEntry
  deriving DecidableEq

/-- The entries yielded by directory.rglob. When the root cannot be
listed (it does not exist, or scandir on it is denied), pathlib glob
swallows the error inside the traversal (observed on CPython 3.11:
a nonexistent root yields an empty iteration, and the glob selectors
catch PermissionError and simply stop), so the traversal yields no file
entries and no exception reaches the caller. -/
def rglobEntries (fs : FileSystem) : List FSEntry :=
  if fs.rootListable then fs.entries else []

/-- The digest computed by _hash_file, modelled as the full byte
content: an idealized injective digest. The spec treats digest equality
as content equality (collision risk accepted as negligible), and the
chunked streaming of the source does not change the digest value. -/
def md5_digest (content : Bytes) : Bytes := content

/-- _hash_file: opens the file and hashes its full content; raises
OSError or PermissionError when the file cannot be read. -/
def hash_file (e : FSEntry) : Except String Bytes :=
  if e.readOk then Except.ok (md5_digest e.content) else Except.error ("OSError")

/-- Appending to a defaultdict(list): appends v to the list at key k,
creating the key at the end on first use (Python dicts preserve
insertion order). -/
def alistAppend {α β : Type} [DecidableEq α] : List (α × List β) → α → β → List (α × List β)
  | [], k, v => [(k, [v])]
  | (k', vs) :: rest, k, v =>
    if k = k' then (k', vs ++ [v]) :: rest else (k', vs) :: alistAppend rest k v

/-- One iteration of the first loop of find_duplicates: only entries
with is_file() true are considered; stat() errors skip the entry; the
entry is bucketed by size when size is at least min_size. -/
def size_insert (min_size : Nat) (m : List (Nat × List FSEntry)) (e : FSEntry) : List (Nat × List FSEntry) :=
  if e.is_file then
    if e.statOk then
      if min_size ≤ e.content.length then alistAppend m e.content.length e else m
    else m
  else m

/-- The size_map of find_duplicates: files grouped by exact byte size. -/
def build_size_map (fs : FileSystem) (min_size : Nat) : List (Nat × List FSEntry) :=
  (rglobEntries fs).foldl (size_insert min_size) []

/-- One iteration of the hashing loop: hash the file and append its
path (as a string) under its digest; a per-file read error skips the
entry and the loop continues. -/
def hash_insert (hm : List (Bytes × List String)) (e : FSEntry) : List (Bytes × List String) :=
  match hash_file e with
  | Except.ok d => alistAppend hm d e.path
  | Except.error _ => hm

/-- The second loop of find_duplicates, for one size bucket: only
buckets holding at least two files are hashed. -/
def bucket_hash (hm : List (Bytes × List String)) (b : Nat × List FSEntry) : List (Bytes × List String) :=
  if 1 < b.2.length then b.2.foldl hash_insert hm else hm

/-- The hash_map of find_duplicates, accumulated across all buckets. -/
def build_hash_map (sm : List (Nat × List FSEntry)) : List (Bytes × List String) :=
  sm.foldl bucket_hash []

/-- find_duplicates: two-phase size-then-hash scan; only digest groups
with at least two paths are returned. This total function covers the
scans in which no entry makes the unguarded is_file() check raise: the
errors of the guarded stat and of hashing are caught in the source, and
traversal errors on the root are swallowed inside pathlib glob. The
is_file() call at the top of the loop body sits outside the try and can
propagate a PermissionError that aborts the scan; find_duplicates_exc
below models that error path and coincides with this function whenever
no yielded entry raises. -/
def find_duplicates (fs : FileSystem) (min_size : Nat) : List (Bytes × List String) :=
  (build_hash_map (build_size_map fs min_size)).filter (fun g => decide (1 < g.2.length))

/-- The entry of the snapshot carrying a given path. -/
def findEntry (fs : FileSystem) (p : String) : Option FSEntry :=
  fs.entries.find? (fun e => e.path == p)

/-- The byte content on disk at a given path of the snapshot. -/
def lookupContent (fs : FileSystem) (p : String) : Option Bytes :=
  (findEntry fs p).map FSEntry.content

/-- One entry of the faithful scan model: the underlying entry plus
whether the stat call inside Path.is_file raises a propagating error
(e.g. PermissionError for an entry under a readable but unsearchable
directory: rglob yields it, stat on it is denied, and pathlib re-raises
because EACCES is not among its ignored errnos). -/
structure ScanEntry where
  entry : FSEntry
  statRaises : Bool
  deriving DecidableEq

/-- Path.is_file as the source calls it at the top of the scan loop,
outside the per-entry try: a propagating stat error escapes as
PermissionError; otherwise the call reports whether the followed target
is a regular file. -/
def pathIsFile (se : ScanEntry) : Except String Bool :=
  if se.statRaises then Except.error ("PermissionError") else Except.ok se.entry.is_file

/-- A filesystem as seen by the faithful scan model. -/
structure ScanFS where
  rootListable : Bool
  entries : List ScanEntry
  deriving DecidableEq

/-- The entries yielded by directory.rglob in the faithful model, as in
rglobEntries: an unlistable root yields nothing. -/
def rglobScanEntries (fs2 : ScanFS) : List ScanEntry :=
  if fs2.rootListable then fs2.entries else []

/-- Projection of the faithful model onto the snapshot model that
ignores the raising path of is_file. -/
def scanFileSystem (fs2 : ScanFS) : FileSystem :=
  FileSystem.mk fs2.rootListable (fs2.entries.map ScanEntry.entry)

/-- The first loop of find_duplicates with the is_file check modelled
faithfully: the call sits outside the try of the loop body, so its
PermissionError propagates and ends the loop; when it returns, the
guarded body is size_insert exactly as in the total model (size_insert
re-tests the returned boolean and skips the entry when it is false, and
errors of the guarded stat skip the entry via statOk). -/
def size_fold_exc (min_size : Nat) : List (Nat × List FSEntry) → List ScanEntry → Except String (List (Nat × List FSEntry))
  | m, [] => Except.ok m
  | m, se :: rest =>
    match pathIsFile se with
    | Except.error e => Except.error e
    | Except.ok _ => size_fold_exc min_size (size_insert min_size m se.entry) rest

/-- find_duplicates with the unguarded is_file call modelled: the scan
either aborts with the PermissionError of the first entry whose is_file
check raises, or completes the plain two-phase scan. -/
def find_duplicates_exc (fs2 : ScanFS) (min_size : Nat) : Except String (List (Bytes × List String)) :=
  match size_fold_exc min_size [] (rglobScanEntries fs2) with
  | Except.error e => Except.error e
  | Except.ok sm => Except.ok ((build_hash_map sm).filter (fun g => decide (1 < g.2.length)))

/-- The mutable filesystem state seen by remove_duplicates: the set of
existing files, and the paths for which os.remove is denied. -/
structure DelFS where
  files : List String
  undeletable : List String
  deriving DecidableEq

/-- os.remove: raises PermissionError on an undeletable path, raises
FileNotFoundError (an OSError) on an absent path, otherwise removes the
file from the filesystem. -/
def osRemove (fs : DelFS) (path : String) : Except String DelFS :=
  if path ∈ fs.undeletable then Except.error ("PermissionError")
  else if path ∈ fs.files then Except.ok (DelFS.mk (fs.files.erase path) fs.undeletable)
  else Except.error ("FileNotFoundError")

/-- Python min(paths, key=len): first path of minimal length; raises
ValueError on an empty sequence. -/
def pyMin (paths : List String) : Except String String :=
  match paths with
  | [] => Except.error ("ValueError")
  | p :: rest => Except.ok (rest.foldl (fun best q => if q.length < best.length then q else best) p)

/-- Python max(paths, key=len): first path of maximal length; raises
ValueError on an empty sequence. -/
def pyMax (paths : List String) : Except String String :=
  match paths with
  | [] => Except.error ("ValueError")
  | p :: rest => Except.ok (rest.foldl (fun best q => if best.length < q.length then q else best) p)

/-- The keep-path selection at the top of each group iteration of
remove_duplicates. An unrecognized keep value raises ValueError with
the message of the source; paths[0] and paths[-1] raise IndexError on
an empty group. -/
def select_keep (keep : String) (paths : List String) : Except String String :=
  if keep = "first" then
    match paths with
    | [] => Except.error ("IndexError")
    | p :: _ => Except.ok p
  else if keep = "last" then
    match paths.getLast? with
    | some p => Except.ok p
    | none => Except.error ("IndexError")
  else if keep = "shortest_path" then pyMin paths
  else if keep = "longest_path" then pyMax paths
  else Except.error ("Invalid keep strategy: " ++ keep)

/-- The running state of remove_duplicates: the filesystem, the list
the function returns (named deleted in the source), and the paths whose
deletion failed, which the source reports only by printing a
Failed-to-delete message and then continues. -/
structure RState where
  fs : DelFS
  deleted : List String
  failures : List String
  deriving DecidableEq

/-- The inner loop of remove_duplicates over the paths of one group:
the keep path is skipped; under dry run each other path is appended to
the returned list without touching the filesystem; otherwise os.remove
is attempted, the path is appended on success, and on failure the
message is printed and the loop continues without appending. -/
def delete_loop (to_keep : String) (dry_run : Bool) : RState → List String → RState
  | st, [] => st
  | st, path :: rest =>
    if path = to_keep then delete_loop to_keep dry_run st rest
    else if dry_run then delete_loop to_keep dry_run (RState.mk st.fs (st.deleted ++ [path]) st.failures) rest
    else
      match osRemove st.fs path with
      | Except.ok fs2 => delete_loop to_keep dry_run (RState.mk fs2 (st.deleted ++ [path]) st.failures) rest
      | Except.error _ => delete_loop to_keep dry_run (RState.mk st.fs st.deleted (st.failures ++ [path])) rest

/-- One iteration of the outer loop of remove_duplicates: select the
keep path, then process the group. An exception while selecting
propagates, carrying the filesystem state at raise time. -/
def process_group (keep : String) (dry_run : Bool) (st : RState) (paths : List String) : Except (String × DelFS) RState :=
  match select_keep keep paths with
  | Except.error e => Except.error (e, st.fs)
  | Except.ok to_keep => Except.ok (delete_loop to_keep dry_run st paths)

/-- The outer loop of remove_duplicates over the groups of the mapping,
in iteration order. -/
def run_groups (keep : String) (dry_run : Bool) : RState → List (Bytes × List String) → Except (String × DelFS) RState
  | st, [] => Except.ok st
  | st, g :: rest =>
    match process_group keep dry_run st g.2 with
    | Except.error e => Except.error e
    | Except.ok st2 => run_groups keep dry_run st2 rest

/-- remove_duplicates: walks the duplicates mapping, keeps one path per
group according to the keep policy, and deletes (or, under dry run,
merely reports) the rest. An uncaught exception is modelled as an error
value carrying the message and the filesystem state at raise time. -/
def remove_duplicates (fs : DelFS) (duplicates : List (Bytes × List String)) (keep : String) (dry_run : Bool) : Except (String × DelFS) RState :=
  run_groups keep dry_run (RState.mk fs [] []) duplicates

/-- remove_duplicates as called with the dry_run argument omitted: the
source declares dry_run=True as its default. -/
def remove_duplicates_default_dry (fs : DelFS) (duplicates : List (Bytes × List String)) (keep : String) : Except (String × DelFS) RState :=
  remove_duplicates fs duplicates keep true

/-- The non-keep candidate paths of one group under a keep policy: all
paths of the group other than the selected keep path. -/
def group_candidates (keep : String) (paths : List String) : List String :=
  match select_keep keep paths with
  | Except.ok k => paths.filter (fun p => decide (p ≠ k))
  | Except.error _ => []

/-! ## Scanner lemmas -/

/-- Every value stored under every key of an association list satisfies
the predicate. -/
def AlistAll {α β : Type} (P : α → β → Prop) (m : List (α × List β)) : Prop :=
  ∀ kv, kv ∈ m → ∀ v, v ∈ kv.2 → P kv.1 v

lemma alistAll_nil {α β : Type} (P : α → β → Prop) :
    AlistAll P ([] : List (α × List β)) := by
  intro kv hkv
  simp at hkv

lemma alistAll_append {α β : Type} [DecidableEq α] {P : α → β → Prop} {k : α} {v : β} :
    ∀ {m : List (α × List β)}, AlistAll P m → P k v → AlistAll P (alistAppend m k v) := by
  intro m
  induction m with
  | nil =>
    intro _ hkv kv hmem w hw
    simp only [alistAppend, List.mem_singleton] at hmem
    subst hmem
    simp only [List.mem_singleton] at hw
    subst hw
    exact hkv
  | cons head rest ih =>
    obtain ⟨k2, vs⟩ := head
    intro hm hkv
    have hrest : AlistAll P rest := fun kv h => hm kv (List.mem_cons_of_mem _ h)
    intro kv hmem w hw
    simp only [alistAppend] at hmem
    by_cases hk : k = k2
    · rw [if_pos hk] at hmem
      rcases List.mem_cons.mp hmem with h | h
      · subst h
        rcases List.mem_append.mp hw with h2 | h2
        · exact hm (k2, vs) (List.mem_cons_self _ _) w h2
        · have hwv : w = v := by simpa using h2
          subst hwv
          exact hk ▸ hkv
      · exact hm kv (List.mem_cons_of_mem _ h) w hw
    · rw [if_neg hk] at hmem
      rcases List.mem_cons.mp hmem with h | h
      · subst h
        exact hm (k2, vs) (List.mem_cons_self _ _) w hw
      · exact ih hrest hkv kv h w hw

/-- What membership of the size map guarantees about an entry. -/
def SizeProp (fs : FileSystem) (min_size : Nat) (s : Nat) (e : FSEntry) : Prop :=
  e ∈ fs.entries ∧ e.is_file = true ∧ e.statOk = true ∧
    s = e.content.length ∧ min_size ≤ e.content.length

lemma rglobEntries_subset (fs : FileSystem) {e : FSEntry} (he : e ∈ rglobEntries fs) :
    e ∈ fs.entries := by
  unfold rglobEntries at he
  split at he
  · exact he
  · simp at he

lemma size_insert_spec (fs : FileSystem) (min_size : Nat) {m : List (Nat × List FSEntry)}
    {e : FSEntry} (hm : AlistAll (SizeProp fs min_size) m) (he : e ∈ fs.entries) :
    AlistAll (SizeProp fs min_size) (size_insert min_size m e) := by
  unfold size_insert
  by_cases h1 : e.is_file = true
  · by_cases h2 : e.statOk = true
    · by_cases h3 : min_size ≤ e.content.length
      · simpa [h1, h2, h3] using alistAll_append hm ⟨he, h1, h2, rfl, h3⟩
      · simpa [h1, h2, h3] using hm
    · simpa [h1, h2] using hm
  · simpa [h1] using hm

lemma foldl_size_insert_spec (fs : FileSystem) (min_size : Nat) :
    ∀ (l : List FSEntry) (m : List (Nat × List FSEntry)),
      (∀ e, e ∈ l → e ∈ fs.entries) → AlistAll (SizeProp fs min_size) m →
      AlistAll (SizeProp fs min_size) (l.foldl (size_insert min_size) m)
  | [], m, _, hm => by simpa using hm
  | e :: rest, m, hl, hm => by
    rw [List.foldl_cons]
    exact foldl_size_insert_spec fs min_size rest _
      (fun x hx => hl x (List.mem_cons_of_mem _ hx))
      (size_insert_spec fs min_size hm (hl e (List.mem_cons_self _ _)))

lemma build_size_map_spec (fs : FileSystem) (min_size : Nat) :
    AlistAll (SizeProp fs min_size) (build_size_map fs min_size) :=
  foldl_size_insert_spec fs min_size (rglobEntries fs) []
    (fun _ hx => rglobEntries_subset fs hx) (alistAll_nil _)

/-- What membership of the hash map guarantees about a path: it names a
yielded entry that passed the is_file check, the stat and size checks
and the read, and the digest of the group is the digest of its content. -/
def HashProp (fs : FileSystem) (min_size : Nat) (d : Bytes) (p : String) : Prop :=
  ∃ e : FSEntry, e ∈ fs.entries ∧ e.is_file = true ∧ e.statOk = true ∧ e.readOk = true ∧
    min_size ≤ e.content.length ∧ p = e.path ∧ d = md5_digest e.content

lemma hash_insert_spec (fs : FileSystem) (min_size : Nat) {hm : List (Bytes × List String)}
    {e : FSEntry} (hhm : AlistAll (HashProp fs min_size) hm)
    (he : e ∈ fs.entries) (h1 : e.is_file = true) (h2 : e.statOk = true)
    (h3 : min_size ≤ e.content.length) :
    AlistAll (HashProp fs min_size) (hash_insert hm e) := by
  unfold hash_insert hash_file
  by_cases hr : e.readOk = true
  · simpa [hr] using alistAll_append hhm ⟨e, he, h1, h2, hr, h3, rfl, rfl⟩
  · simpa [hr] using hhm

lemma foldl_hash_insert_spec (fs : FileSystem) (min_size : Nat) (s : Nat) :
    ∀ (l : List FSEntry) (hm : List (Bytes × List String)),
      (∀ e, e ∈ l → SizeProp fs min_size s e) → AlistAll (HashProp fs min_size) hm →
      AlistAll (HashProp fs min_size) (l.foldl hash_insert hm)
  | [], hm, _, hhm => by simpa using hhm
  | e :: rest, hm, hl, hhm => by
    rw [List.foldl_cons]
    have hse := hl e (List.mem_cons_self _ _)
    exact foldl_hash_insert_spec fs min_size s rest _
      (fun x hx => hl x (List.mem_cons_of_mem _ hx))
      (hash_insert_spec fs min_size hhm hse.1 hse.2.1 hse.2.2.1 hse.2.2.2.2)

lemma foldl_bucket_hash_spec (fs : FileSystem) (min_size : Nat) :
    ∀ (sm : List (Nat × List FSEntry)) (hm : List (Bytes × List String)),
      AlistAll (SizeProp fs min_size) sm → AlistAll (HashProp fs min_size) hm →
      AlistAll (HashProp fs min_size) (sm.foldl bucket_hash hm)
  | [], hm, _, hhm => by simpa using hhm
  | b :: rest, hm, hsm, hhm => by
    rw [List.foldl_cons]
    have hrest : AlistAll (SizeProp fs min_size) rest :=
      fun kv h => hsm kv (List.mem_cons_of_mem _ h)
    apply foldl_bucket_hash_spec fs min_size rest _ hrest
    unfold bucket_hash
    by_cases hlen : 1 < b.2.length
    · simpa [hlen] using
        foldl_hash_insert_spec fs min_size b.1 b.2 hm
          (fun e he => hsm b (List.mem_cons_self _ _) e he) hhm
    · simpa [hlen] using hhm

lemma build_hash_map_spec (fs : FileSystem) (min_size : Nat) :
    AlistAll (HashProp fs min_size) (build_hash_map (build_size_map fs min_size)) :=
  foldl_bucket_hash_spec fs min_size (build_size_map fs min_size) []
    (build_size_map_spec fs min_size) (alistAll_nil _)

/-- Core guarantee of find_duplicates: every returned group has at
least two member paths, and every member path names a yielded entry
that passed every check and whose content digest is the group key. -/
lemma find_duplicates_spec (fs : FileSystem) (min_size : Nat)
    {g : Bytes × List String} (hg : g ∈ find_duplicates fs min_size) :
    2 ≤ g.2.length ∧ ∀ p, p ∈ g.2 → HashProp fs min_size g.1 p := by
  unfold find_duplicates at hg
  have hmem := List.mem_filter.mp hg
  refine ⟨by have := of_decide_eq_true hmem.2; omega, ?_⟩
  intro p hp
  exact build_hash_map_spec fs min_size g hmem.1 p hp

lemma find?_path_eq :
    ∀ {l : List FSEntry}, (l.map FSEntry.path).Nodup →
      ∀ {e : FSEntry}, e ∈ l → l.find? (fun e2 => e2.path == e.path) = some e := by
  intro l
  induction l with
  | nil =>
    intro _ e he
    simp at he
  | cons a rest ih =>
    intro hnd e he
    have hnd2 : (rest.map FSEntry.path).Nodup := (List.nodup_cons.mp (by simpa using hnd)).2
    rcases List.mem_cons.mp he with h | h
    · subst h
      exact List.find?_cons_of_pos _ (by simp)
    · have hne : (a.path == e.path) = false := by
        have hnot : a.path ∉ rest.map FSEntry.path := (List.nodup_cons.mp (by simpa using hnd)).1
        have : a.path ≠ e.path := by
          intro hEq
          exact hnot (hEq ▸ List.mem_map_of_mem FSEntry.path h)
        simpa using this
      rw [List.find?_cons_of_neg _ (by simp [hne]), ih hnd2 h]

lemma findEntry_of_mem (fs : FileSystem) (hnd : (fs.entries.map FSEntry.path).Nodup)
    {e : FSEntry} (he : e ∈ fs.entries) : findEntry fs e.path = some e :=
  find?_path_eq hnd he

lemma lookupContent_of_mem (fs : FileSystem) (hnd : (fs.entries.map FSEntry.path).Nodup)
    {e : FSEntry} (he : e ∈ fs.entries) : lookupContent fs e.path = some e.content := by
  unfold lookupContent
  rw [findEntry_of_mem fs hnd he]
  rfl

lemma rglob_map_entry (fs2 : ScanFS) :
    (rglobScanEntries fs2).map ScanEntry.entry = rglobEntries (scanFileSystem fs2) := by
  unfold rglobScanEntries rglobEntries scanFileSystem
  by_cases h : fs2.rootListable = true <;> simp [h]

/-- When some entry of the loop makes the unguarded is_file check
raise, the first loop aborts with its PermissionError. -/
lemma size_fold_exc_raises (min_size : Nat) :
    ∀ (l : List ScanEntry) (m : List (Nat × List FSEntry)),
      l.any (fun se => se.statRaises) = true →
      size_fold_exc min_size m l = Except.error ("PermissionError")
  | [], m, h => by simp at h
  | se :: rest, m, h => by
    by_cases hse : se.statRaises = true
    · rw [size_fold_exc]
      simp [pathIsFile, hse]
    · have hrest : rest.any (fun s => s.statRaises) = true := by
        simp only [List.any_cons, Bool.or_eq_true] at h
        rcases h with h | h
        · exact absurd h hse
        · exact h
      rw [size_fold_exc]
      simp only [pathIsFile, hse, Bool.false_eq_true, if_false]
      exact size_fold_exc_raises min_size rest _ hrest

/-- When no entry of the loop makes the unguarded is_file check raise,
the first loop completes and equals the fold of the total model. -/
lemma size_fold_exc_no_raise (min_size : Nat) :
    ∀ (l : List ScanEntry) (m : List (Nat × List FSEntry)),
      (∀ se, se ∈ l → se.statRaises = false) →
      size_fold_exc min_size m l =
        Except.ok ((l.map ScanEntry.entry).foldl (size_insert min_size) m)
  | [], m, _ => by simp [size_fold_exc]
  | se :: rest, m, hall => by
    have h0 : se.statRaises = false := hall se (List.mem_cons_self _ _)
    rw [size_fold_exc]
    simp only [pathIsFile, h0, Bool.false_eq_true, if_false]
    rw [size_fold_exc_no_raise min_size rest (size_insert min_size m se.entry)
      (fun s hs => hall s (List.mem_cons_of_mem _ hs))]
    simp

/-! ## Resolver lemmas -/

lemma osRemove_ok {fs : DelFS} {path : String} {fs2 : DelFS}
    (h : osRemove fs path = Except.ok fs2) :
    fs2.files = fs.files.erase path ∧ fs2.undeletable = fs.undeletable := by
  unfold osRemove at h
  split at h
  · simp at h
  · split at h
    · simp only [Except.ok.injEq] at h
      subst h
      exact ⟨rfl, rfl⟩
    · simp at h

lemma getLast?_mem : ∀ {l : List String} {a : String}, l.getLast? = some a → a ∈ l
  | [], a, h => by simp at h
  | [x], a, h => by
    simp only [List.getLast?_singleton, Option.some.injEq] at h
    simp [h]
  | x :: y :: rest, a, h => by
    rw [List.getLast?_cons_cons] at h
    exact List.mem_cons_of_mem _ (getLast?_mem h)

lemma foldl_choice_mem (f : String → String → String)
    (hf : ∀ a b, f a b = a ∨ f a b = b) :
    ∀ (l : List String) (a : String), l.foldl f a ∈ a :: l
  | [], a => by simp
  | b :: rest, a => by
    rw [List.foldl_cons]
    have h := foldl_choice_mem f hf rest (f a b)
    rcases List.mem_cons.mp h with h2 | h2
    · rcases hf a b with h3 | h3
      · rw [h2, h3]
        exact List.mem_cons_self _ _
      · rw [h2, h3]
        exact List.mem_cons_of_mem _ (List.mem_cons_self _ _)
    · exact List.mem_cons_of_mem _ (List.mem_cons_of_mem _ h2)

lemma pyMin_mem {paths : List String} {k : String} (h : pyMin paths = Except.ok k) :
    k ∈ paths := by
  unfold pyMin at h
  cases paths with
  | nil => simp at h
  | cons p rest =>
    simp only [Except.ok.injEq] at h
    subst h
    exact foldl_choice_mem _ (fun a b => by by_cases hab : b.length < a.length <;> simp [hab]) rest p

lemma pyMax_mem {paths : List String} {k : String} (h : pyMax paths = Except.ok k) :
    k ∈ paths := by
  unfold pyMax at h
  cases paths with
  | nil => simp at h
  | cons p rest =>
    simp only [Except.ok.injEq] at h
    subst h
    exact foldl_choice_mem _ (fun a b => by by_cases hab : a.length < b.length <;> simp [hab]) rest p

/-- Whatever the keep policy, a successfully selected keep path is a
member of the group. -/
lemma select_keep_mem {keep : String} {paths : List String} {k : String}
    (h : select_keep keep paths = Except.ok k) : k ∈ paths := by
  unfold select_keep at h
  split_ifs at h
  · cases paths with
    | nil => simp at h
    | cons p rest =>
      simp only [Except.ok.injEq] at h
      subst h
      exact List.mem_cons_self _ _
  · cases hL : paths.getLast? with
    | none => rw [hL] at h; simp at h
    | some p =>
      rw [hL] at h
      simp only [Except.ok.injEq] at h
      subst h
      exact getLast?_mem hL
  · exact pyMin_mem h
  · exact pyMax_mem h

/-- The inner loop under dry run: the filesystem and the failure log
are untouched and exactly the non-keep paths are appended, in order. -/
lemma delete_loop_dry (to_keep : String) :
    ∀ (l : List String) (st : RState),
      delete_loop to_keep true st l =
        RState.mk st.fs (st.deleted ++ l.filter (fun p => decide (p ≠ to_keep))) st.failures
  | [], st => by simp [delete_loop]
  | path :: rest, st => by
    by_cases h : path = to_keep
    · rw [delete_loop, if_pos h, delete_loop_dry to_keep rest st]
      simp [List.filter_cons, h]
    · rw [delete_loop, if_neg h, if_pos rfl, delete_loop_dry to_keep rest _]
      simp [List.filter_cons, h]

/-- The inner loop under a real run: a path lands in the returned list
or in the failure log exactly when it was already there or is a
non-keep path of the group being processed. -/
lemma delete_loop_real_mem (to_keep : String) (x : String) :
    ∀ (l : List String) (st : RState),
      ((x ∈ (delete_loop to_keep false st l).deleted ∨
        x ∈ (delete_loop to_keep false st l).failures) ↔
       (x ∈ st.deleted ∨ x ∈ st.failures ∨ (x ∈ l ∧ x ≠ to_keep)))
  | [], st => by simp [delete_loop]
  | path :: rest, st => by
    by_cases h : path = to_keep
    · rw [delete_loop, if_pos h]
      rw [delete_loop_real_mem to_keep x rest st]
      subst h
      constructor
      · intro hc
        rcases hc with hc | hc | hc
        · exact Or.inl hc
        · exact Or.inr (Or.inl hc)
        · exact Or.inr (Or.inr ⟨List.mem_cons_of_mem _ hc.1, hc.2⟩)
      · intro hc
        rcases hc with hc | hc | hc
        · exact Or.inl hc
        · exact Or.inr (Or.inl hc)
        · rcases List.mem_cons.mp hc.1 with h2 | h2
          · exact absurd h2 hc.2
          · exact Or.inr (Or.inr ⟨h2, hc.2⟩)
    · have hxp : x = path → x ≠ to_keep := fun hx => hx ▸ h
      rw [delete_loop, if_neg h, if_neg (by simp)]
      cases hrem : osRemove st.fs path with
      | ok fs2 =>
        rw [delete_loop_real_mem to_keep x rest _]
        simp only [List.mem_append, List.mem_cons, List.not_mem_nil, or_false]
        constructor
        · intro hc
          rcases hc with (hc | hc) | hc | hc
          · exact Or.inl hc
          · exact Or.inr (Or.inr ⟨Or.inl hc, hxp hc⟩)
          · exact Or.inr (Or.inl hc)
          · exact Or.inr (Or.inr ⟨Or.inr hc.1, hc.2⟩)
        · intro hc
          rcases hc with hc | hc | hc
          · exact Or.inl (Or.inl hc)
          · exact Or.inr (Or.inl hc)
          · rcases hc.1 with h2 | h2
            · exact Or.inl (Or.inr h2)
            · exact Or.inr (Or.inr ⟨h2, hc.2⟩)
      | error e =>
        rw [delete_loop_real_mem to_keep x rest _]
        simp only [List.mem_append, List.mem_cons, List.not_mem_nil, or_false]
        constructor
        · intro hc
          rcases hc with hc | (hc | hc) | hc
          · exact Or.inl hc
          · exact Or.inr (Or.inl hc)
          · exact Or.inr (Or.inr ⟨Or.inl hc, hxp hc⟩)
          · exact Or.inr (Or.inr ⟨Or.inr hc.1, hc.2⟩)
        · intro hc
          rcases hc with hc | hc | hc
          · exact Or.inl hc
          · exact Or.inr (Or.inl (Or.inl hc))
          · rcases hc.1 with h2 | h2
            · exact Or.inr (Or.inl (Or.inr h2))
            · exact Or.inr (Or.inr ⟨h2, hc.2⟩)

/-- A path that is the keep path, or that does not occur in the group
at all, is never removed, never appended to the returned list and never
reported failed by the inner loop. -/
lemma delete_loop_untouched (to_keep : String) (dry_run : Bool) (x : String) :
    ∀ (l : List String) (st : RState), (x ∉ l ∨ x = to_keep) →
      ((x ∈ st.fs.files → x ∈ (delete_loop to_keep dry_run st l).fs.files) ∧
       (x ∉ st.deleted → x ∉ (delete_loop to_keep dry_run st l).deleted) ∧
       (x ∉ st.failures → x ∉ (delete_loop to_keep dry_run st l).failures))
  | [], st, _ => by simp [delete_loop]
  | path :: rest, st, hx => by
    have hrest : x ∉ rest ∨ x = to_keep := by
      rcases hx with hx | hx
      · exact Or.inl (fun hc => hx (List.mem_cons_of_mem _ hc))
      · exact Or.inr hx
    by_cases h : path = to_keep
    · rw [delete_loop, if_pos h]
      exact delete_loop_untouched to_keep dry_run x rest st hrest
    · have hxpath : x ≠ path := by
        rcases hx with hx | hx
        · exact fun hc => hx (hc ▸ List.mem_cons_self _ _)
        · exact fun hc => h (hc ▸ hx)
      rw [delete_loop, if_neg h]
      by_cases hdry : dry_run = true
      · rw [if_pos hdry]
        have ih := delete_loop_untouched to_keep dry_run x rest
          (RState.mk st.fs (st.deleted ++ [path]) st.failures) hrest
        refine ⟨fun hf => ih.1 hf, fun hd => ih.2.1 ?_, fun hf => ih.2.2 hf⟩
        simp [hd, hxpath]
      · rw [if_neg hdry]
        cases hrem : osRemove st.fs path with
        | ok fs2 =>
          have ih := delete_loop_untouched to_keep dry_run x rest
            (RState.mk fs2 (st.deleted ++ [path]) st.failures) hrest
          refine ⟨fun hf => ih.1 ?_, fun hd => ih.2.1 ?_, fun hf => ih.2.2 hf⟩
          · rw [(osRemove_ok hrem).1]
            exact (List.mem_erase_of_ne hxpath).mpr hf
          · simp [hd, hxpath]
        | error e =>
          have ih := delete_loop_untouched to_keep dry_run x rest
            (RState.mk st.fs st.deleted (st.failures ++ [path])) hrest
          refine ⟨fun hf => ih.1 hf, fun hd => ih.2.1 hd, fun hf => ih.2.2 ?_⟩
          simp [hf, hxpath]

/-- The outer loop under dry run: the filesystem and the failure log
are untouched and the returned list accumulates exactly the non-keep
candidate paths of every group, in order. -/
lemma run_groups_dry (keep : String) :
    ∀ (dups : List (Bytes × List String)) (st r : RState),
      run_groups keep true st dups = Except.ok r →
      r = RState.mk st.fs
        (st.deleted ++ dups.flatMap (fun g => group_candidates keep g.2)) st.failures
  | [], st, r, h => by
    simp only [run_groups, Except.ok.injEq] at h
    subst h
    simp
  | g :: rest, st, r, h => by
    cases hpg : select_keep keep g.2 with
    | error e =>
      simp only [run_groups, process_group, hpg] at h
      exact absurd h (by simp)
    | ok k =>
      simp only [run_groups, process_group, hpg] at h
      have hr := run_groups_dry keep rest _ r h
      have hgc : group_candidates keep g.2 = g.2.filter (fun p => decide (p ≠ k)) := by
        simp only [group_candidates, hpg]
      rw [hr, delete_loop_dry k g.2 st]
      simp [hgc, List.append_assoc]

/-- The outer loop under a real run: a path is returned as deleted or
reported failed exactly when it was already so, or is a non-keep path
of some processed group. -/
lemma run_groups_real_mem (keep : String) (x : String) :
    ∀ (dups : List (Bytes × List String)) (st r : RState),
      run_groups keep false st dups = Except.ok r →
      ((x ∈ r.deleted ∨ x ∈ r.failures) ↔
       (x ∈ st.deleted ∨ x ∈ st.failures ∨
        ∃ g, g ∈ dups ∧ ∃ k, select_keep keep g.2 = Except.ok k ∧ x ∈ g.2 ∧ x ≠ k))
  | [], st, r, h => by
    simp only [run_groups, Except.ok.injEq] at h
    subst h
    simp
  | g :: rest, st, r, h => by
    cases hpg : select_keep keep g.2 with
    | error e =>
      simp only [run_groups, process_group, hpg] at h
      exact absurd h (by simp)
    | ok k =>
      simp only [run_groups, process_group, hpg] at h
      have hih := run_groups_real_mem keep x rest _ r h
      have hloop := delete_loop_real_mem k x g.2 st
      rw [hih, ← or_assoc, hloop]
      simp only [List.mem_cons]
      constructor
      · intro hc
        rcases hc with (hc | hc | hc) | hc
        · exact Or.inl hc
        · exact Or.inr (Or.inl hc)
        · exact Or.inr (Or.inr ⟨g, Or.inl rfl, k, hpg, hc⟩)
        · obtain ⟨g2, hg2, k2, hk2, hx2⟩ := hc
          exact Or.inr (Or.inr ⟨g2, Or.inr hg2, k2, hk2, hx2⟩)
      · intro hc
        rcases hc with hc | hc | hc
        · exact Or.inl (Or.inl hc)
        · exact Or.inl (Or.inr (Or.inl hc))
        · obtain ⟨g2, hg2, k2, hk2, hx2⟩ := hc
          rcases hg2 with hg2 | hg2
          · subst hg2
            rw [hpg] at hk2
            injection hk2 with hk2
            subst hk2
            exact Or.inl (Or.inr (Or.inr hx2))
          · exact Or.inr ⟨g2, hg2, k2, hk2, hx2⟩

/-- A path occurring in no group of the mapping is never removed, never
returned and never reported failed by the outer loop. -/
lemma run_groups_untouched (keep : String) (dry_run : Bool) (x : String) :
    ∀ (dups : List (Bytes × List String)) (st r : RState),
      x ∉ dups.flatMap (fun g => g.2) →
      run_groups keep dry_run st dups = Except.ok r →
      ((x ∈ st.fs.files → x ∈ r.fs.files) ∧ (x ∉ st.deleted → x ∉ r.deleted) ∧
       (x ∉ st.failures → x ∉ r.failures))
  | [], st, r, _, h => by
    simp only [run_groups, Except.ok.injEq] at h
    subst h
    exact ⟨id, id, id⟩
  | g :: rest, st, r, hx, h => by
    have hxg : x ∉ g.2 := fun hc => hx (List.mem_flatMap.mpr ⟨g, List.mem_cons_self _ _, hc⟩)
    have hxrest : x ∉ rest.flatMap (fun g2 => g2.2) := by
      intro hc
      obtain ⟨g2, hg2, hc2⟩ := List.mem_flatMap.mp hc
      exact hx (List.mem_flatMap.mpr ⟨g2, List.mem_cons_of_mem _ hg2, hc2⟩)
    cases hpg : select_keep keep g.2 with
    | error e =>
      simp only [run_groups, process_group, hpg] at h
      exact absurd h (by simp)
    | ok k =>
      simp only [run_groups, process_group, hpg] at h
      have hstep := delete_loop_untouched k dry_run x g.2 st (Or.inl hxg)
      have ih := run_groups_untouched keep dry_run x rest _ r hxrest h
      exact ⟨fun hf => ih.1 (hstep.1 hf), fun hd => ih.2.1 (hstep.2.1 hd),
        fun hf => ih.2.2 (hstep.2.2 hf)⟩

/-- Core of claim C1: over a mapping whose member paths are globally
distinct, the keep path of any group survives the whole outer loop. -/
lemma run_groups_keep_safe (keep : String) (dry_run : Bool) :
    ∀ (dups : List (Bytes × List String)) (st r : RState),
      (dups.flatMap (fun g => g.2)).Nodup →
      run_groups keep dry_run st dups = Except.ok r →
      ∀ g, g ∈ dups → ∀ k, select_keep keep g.2 = Except.ok k →
        ((k ∈ st.fs.files → k ∈ r.fs.files) ∧ (k ∉ st.deleted → k ∉ r.deleted) ∧
         (k ∉ st.failures → k ∉ r.failures))
  | [], st, r, _, h => by
    intro g hg
    simp at hg
  | g0 :: rest, st, r, hnd, h => by
    intro g hg k hk
    rw [List.flatMap_cons] at hnd
    have hnd2 : (rest.flatMap (fun g2 => g2.2)).Nodup := hnd.of_append_right
    have hdisj := List.disjoint_of_nodup_append hnd
    cases hpg0 : select_keep keep g0.2 with
    | error e =>
      simp only [run_groups, process_group, hpg0] at h
      exact absurd h (by simp)
    | ok k0 =>
      simp only [run_groups, process_group, hpg0] at h
      rcases List.mem_cons.mp hg with hgg | hgg
      · have hkk : k = k0 := by
          rw [hgg, hpg0] at hk
          simpa using hk.symm
        have hkmem0 : k ∈ g0.2 := by
          have hm := select_keep_mem hk
          rw [hgg] at hm
          exact hm
        have hstep := delete_loop_untouched k0 dry_run k g0.2 st (Or.inr hkk)
        have hkrest : k ∉ rest.flatMap (fun g2 => g2.2) := fun hc => hdisj hkmem0 hc
        have htail := run_groups_untouched keep dry_run k rest _ r hkrest h
        exact ⟨fun hf => htail.1 (hstep.1 hf), fun hd => htail.2.1 (hstep.2.1 hd),
          fun hf => htail.2.2 (hstep.2.2 hf)⟩
      · have hkg : k ∈ g.2 := select_keep_mem hk
        have hkrest : k ∈ rest.flatMap (fun g2 => g2.2) := List.mem_flatMap.mpr ⟨g, hgg, hkg⟩
        have hkg0 : k ∉ g0.2 := fun hc => hdisj hc hkrest
        have hstep := delete_loop_untouched k0 dry_run k g0.2 st (Or.inl hkg0)
        have ih := run_groups_keep_safe keep dry_run rest _ r hnd2 h g hgg k hk
        exact ⟨fun hf => ih.1 (hstep.1 hf), fun hd => ih.2.1 (hstep.2.1 hd),
          fun hf => ih.2.2 (hstep.2.2 hf)⟩

/-- Membership of the concatenated candidate lists, characterized
through the keep selection. -/
lemma mem_flatMap_candidates (keep : String) (dups : List (Bytes × List String)) (x : String) :
    x ∈ dups.flatMap (fun g => group_candidates keep g.2) ↔
      ∃ g, g ∈ dups ∧ ∃ k, select_keep keep g.2 = Except.ok k ∧ x ∈ g.2 ∧ x ≠ k := by
  rw [List.mem_flatMap]
  constructor
  · rintro ⟨g, hg, hx⟩
    cases hpg : select_keep keep g.2 with
    | error e =>
      simp only [group_candidates, hpg] at hx
      simp at hx
    | ok k =>
      simp only [group_candidates, hpg] at hx
      have hmf := List.mem_filter.mp hx
      exact ⟨g, hg, k, hpg, hmf.1, of_decide_eq_true hmf.2⟩
  · rintro ⟨g, hg, k, hk, hx, hne⟩
    refine ⟨g, hg, ?_⟩
    simp only [group_candidates, hk]
    exact List.mem_filter.mpr ⟨hx, decide_eq_true hne⟩

/-! ## Concrete instances used by the witnesses -/

def entA : FSEntry := FSEntry.mk ("x/a") EntryKind.regular [7, 8] true true

def entB : FSEntry := FSEntry.mk ("x/b") EntryKind.regular [7, 8] true true

def entSym : FSEntry := FSEntry.mk ("x/s") EntryKind.symlinkToRegular [7, 8] true true

def exScanFS : FileSystem := FileSystem.mk true [entA, entB]

def symScanFS : FileSystem := FileSystem.mk true [entA, entSym]

def badRootFS : FileSystem := FileSystem.mk false [entA, entB]

def exDelFS : DelFS := DelFS.mk [("x/a"), ("x/b"), ("y/c")] []

def exDups : List (Bytes × List String) := [([7, 8], [("x/a"), ("x/b")])]

def exDryR : RState := RState.mk exDelFS [("x/b")] []

def exDryLastR : RState := RState.mk exDelFS [("x/a")] []

def exRealR : RState := RState.mk (DelFS.mk [("x/a"), ("y/c")] []) [("x/b")] []

def failDelFS : DelFS := DelFS.mk [("a"), ("b"), ("c")] [("b")]

def failDups : List (Bytes × List String) := [([7], [("a"), ("b"), ("c")])]

def failDryR : RState := RState.mk failDelFS [("b"), ("c")] []

def failRealR : RState := RState.mk (DelFS.mk [("a"), ("b")] [("b")]) [("c")] [("b")]

/-! ## Claims -/

/-- Claim C1: for every duplicates mapping whose groups are lists of
globally distinct paths (as find_duplicates produces them), every keep
policy and both dry-run and real-run modes, the keep path selected for
a group survives on the filesystem, never appears in the returned
deletion list, and is never among the reported deletion failures. -/
theorem c1_keep_path_never_deleted (fs : DelFS) (dups : List (Bytes × List String))
    (keep : String) (dry_run : Bool)
    (hnd : (dups.flatMap (fun g => g.2)).Nodup)
    (r : RState) (h : remove_duplicates fs dups keep dry_run = Except.ok r)
    (g : Bytes × List String) (hg : g ∈ dups)
    (k : String) (hk : select_keep keep g.2 = Except.ok k)
    (hkf : k ∈ fs.files) :
    k ∈ r.fs.files ∧ k ∉ r.deleted ∧ k ∉ r.failures := by
  have hsafe := run_groups_keep_safe keep dry_run dups (RState.mk fs [] []) r hnd h g hg k hk
  exact ⟨hsafe.1 hkf, hsafe.2.1 (by simp), hsafe.2.2 (by simp)⟩

/-- Witness for C1 at a concrete real-run input. -/
theorem c1_witness :
    ("x/a") ∈ exRealR.fs.files ∧ ("x/a") ∉ exRealR.deleted ∧ ("x/a") ∉ exRealR.failures :=
  c1_keep_path_never_deleted exDelFS exDups ("first") false (by decide) exRealR rfl
    (([7, 8], [("x/a"), ("x/b")])) (by decide) ("x/a") rfl (by decide)

/-- Claim C2: over a snapshot with distinct entry paths, every group
returned by find_duplicates has at least two member paths, and any two
members of one group carry byte-identical content, namely the content
whose idealized digest is the group key. -/
theorem c2_groups_at_least_two_and_identical (fs : FileSystem) (min_size : Nat)
    (hnd : (fs.entries.map FSEntry.path).Nodup)
    (g : Bytes × List String) (hg : g ∈ find_duplicates fs min_size)
    (p : String) (hp : p ∈ g.2) (q : String) (hq : q ∈ g.2) :
    2 ≤ g.2.length ∧ lookupContent fs p = some g.1 ∧
      lookupContent fs p = lookupContent fs q := by
  obtain ⟨hlen, hall⟩ := find_duplicates_spec fs min_size hg
  have hlp : lookupContent fs p = some g.1 := by
    obtain ⟨e, he, -, -, -, -, hpe, hde⟩ := hall p hp
    subst hpe
    rw [lookupContent_of_mem fs hnd he, hde]
    rfl
  have hlq : lookupContent fs q = some g.1 := by
    obtain ⟨e, he, -, -, -, -, hqe, hde⟩ := hall q hq
    subst hqe
    rw [lookupContent_of_mem fs hnd he, hde]
    rfl
  exact ⟨hlen, hlp, hlp.trans hlq.symm⟩

/-- Witness for C2 at a concrete two-file snapshot. -/
theorem c2_witness :
    2 ≤ (([7, 8], [("x/a"), ("x/b")]) : Bytes × List String).2.length ∧
    lookupContent exScanFS ("x/a") = some ([7, 8], [("x/a"), ("x/b")]).1 ∧
    lookupContent exScanFS ("x/a") = lookupContent exScanFS ("x/b") :=
  c2_groups_at_least_two_and_identical exScanFS 1 (by decide)
    (([7, 8], [("x/a"), ("x/b")])) (by decide) ("x/a") (by decide) ("x/b") (by decide)

/-- Claim C3: under dry run remove_duplicates mutates nothing: the
filesystem comes back unchanged, no failure is reported, and the
returned list is exactly the concatenation of the non-keep candidate
paths of every group. -/
theorem c3_dry_run_no_deletion (fs : DelFS) (dups : List (Bytes × List String))
    (keep : String) (r : RState)
    (h : remove_duplicates fs dups keep true = Except.ok r) :
    r.fs = fs ∧ r.failures = [] ∧
      r.deleted = dups.flatMap (fun g => group_candidates keep g.2) := by
  have hr := run_groups_dry keep dups (RState.mk fs [] []) r h
  rw [hr]
  exact ⟨rfl, rfl, rfl⟩

/-- Witness for C3 at a concrete dry-run input. -/
theorem c3_witness :
    exDryR.fs = exDelFS ∧ exDryR.failures = [] ∧
      exDryR.deleted = exDups.flatMap (fun g => group_candidates ("first") g.2) :=
  c3_dry_run_no_deletion exDelFS exDups ("first") exDryR rfl

/-- Claim C4: for a fixed mapping, keep policy and starting filesystem,
the dry run returns exactly the candidate paths, and a path is reported
by the dry run exactly when the real run reports it as deleted or as
failed: every candidate receives an outcome and one failure never
aborts the batch. -/
theorem c4_real_run_reports_all_candidates (fs : DelFS) (dups : List (Bytes × List String))
    (keep : String) (rd rr : RState)
    (hd : remove_duplicates fs dups keep true = Except.ok rd)
    (hr : remove_duplicates fs dups keep false = Except.ok rr)
    (x : String) :
    rd.deleted = dups.flatMap (fun g => group_candidates keep g.2) ∧
    (x ∈ rd.deleted ↔ (x ∈ rr.deleted ∨ x ∈ rr.failures)) := by
  have hdel : rd.deleted = dups.flatMap (fun g => group_candidates keep g.2) := by
    have hrd := run_groups_dry keep dups (RState.mk fs [] []) rd hd
    rw [hrd]
    rfl
  have hmem := run_groups_real_mem keep x dups (RState.mk fs [] []) rr hr
  refine ⟨hdel, ?_⟩
  rw [hdel, mem_flatMap_candidates, hmem]
  simp

/-- Witness for C4 at an input whose real run has one failed and one
successful deletion. -/
theorem c4_witness :
    failDryR.deleted = failDups.flatMap (fun g => group_candidates ("first") g.2) ∧
    (("b") ∈ failDryR.deleted ↔ (("b") ∈ failRealR.deleted ∨ ("b") ∈ failRealR.failures)) :=
  c4_real_run_reports_all_candidates failDelFS failDups ("first") failDryR failRealR
    rfl rfl ("b")

/-- Claim C5 (amended): when the root directory cannot be listed (it
does not exist, or scandir on it is denied), find_duplicates surfaces
no exception: the pathlib traversal swallows the error and the scan
returns an empty mapping. -/
theorem c5_unlistable_root_returns_empty (fs : FileSystem)
    (h : fs.rootListable = false) (min_size : Nat) :
    find_duplicates fs min_size = [] := by
  unfold find_duplicates build_hash_map build_size_map rglobEntries
  rw [h]
  rfl

/-- Witness for the amended C5. -/
theorem c5_witness : find_duplicates badRootFS 1024 = [] :=
  c5_unlistable_root_returns_empty badRootFS rfl 1024

/-- Counterexample to C5 as stated: with an unlistable root the scan
raises nothing and returns an empty mapping, although the very same
entries under a listable root form a duplicate group, so the empty
result comes from the swallowed traversal error, not from an absence
of duplicates. -/
theorem c5_counterexample :
    find_duplicates badRootFS 1024 = [] ∧
    find_duplicates (FileSystem.mk true badRootFS.entries) 1 =
      [([7, 8], [("x/a"), ("x/b")])] :=
  ⟨rfl, rfl⟩

/-- Inclusion lemma supporting C6: every path in a returned group names
an entry whose followed target is a regular file and whose guarded stat
and read both succeeded, so the errors that the loop body catches only
ever skip that entry; symlinks resolving to regular files count as
files (Path.is_file follows symlinks) and are included, not skipped. -/
theorem c6_only_readable_file_entries (fs : FileSystem) (min_size : Nat)
    (hnd : (fs.entries.map FSEntry.path).Nodup)
    (g : Bytes × List String) (hg : g ∈ find_duplicates fs min_size)
    (p : String) (hp : p ∈ g.2) :
    (findEntry fs p).any (fun e => e.is_file && e.statOk && e.readOk) = true := by
  obtain ⟨-, hall⟩ := find_duplicates_spec fs min_size hg
  obtain ⟨e, he, h1, h2, h3, -, hpe, -⟩ := hall p hp
  subst hpe
  rw [findEntry_of_mem fs hnd he]
  simp [Option.any, h1, h2, h3]

/-- Instance of the inclusion lemma at the symlink snapshot: the
included symlink entry passed all checks. -/
theorem c6_witness :
    (findEntry symScanFS ("x/s")).any (fun e => e.is_file && e.statOk && e.readOk) = true :=
  c6_only_readable_file_entries symScanFS 1 (by decide)
    (([7, 8], [("x/a"), ("x/s")])) (by decide) ("x/s") (by decide)

/-- Counterexample to C6 as stated: path x/s names a symlink (not a
regular file), yet it appears in the group returned by the scan, so
symlinks to regular files are not skipped. -/
theorem c6_counterexample :
    find_duplicates symScanFS 1 = [([7, 8], [("x/a"), ("x/s")])] ∧
    findEntry symScanFS ("x/s") = some entSym ∧
    entSym.kind = EntryKind.symlinkToRegular :=
  ⟨rfl, rfl, rfl⟩

/-- Claim C6 (amended): the is_file() check at the top of the scan loop
sits outside the per-entry try, and Path.is_file re-raises stat errors
such as PermissionError, so one such entry aborts the whole scan with
no result; only the errors of the guarded stat inside the loop body and
the read errors while hashing cause the entry to be skipped without
aborting. Formally: the scan raises PermissionError exactly when some
yielded entry makes the unguarded is_file check raise, and otherwise it
completes and returns the plain two-phase scan of the underlying
entries, in which symlinks resolving to regular files are included and
only fully checked file entries appear (the inclusion lemma above). -/
theorem c6_is_file_error_aborts_scan (fs2 : ScanFS) (min_size : Nat) :
    find_duplicates_exc fs2 min_size =
      if (rglobScanEntries fs2).any (fun se => se.statRaises) then
        Except.error ("PermissionError")
      else Except.ok (find_duplicates (scanFileSystem fs2) min_size) := by
  unfold find_duplicates_exc
  by_cases hr : (rglobScanEntries fs2).any (fun se => se.statRaises) = true
  · rw [size_fold_exc_raises min_size (rglobScanEntries fs2) [] hr, if_pos hr]
  · have hall : ∀ se, se ∈ rglobScanEntries fs2 → se.statRaises = false := by
      intro se hse
      by_contra hc
      exact hr (List.any_eq_true.mpr ⟨se, hse, by simpa using hc⟩)
    rw [size_fold_exc_no_raise min_size (rglobScanEntries fs2) [] hall, rglob_map_entry,
      if_neg hr]
    rfl

/-- Claim C7 (amended): on a nonempty duplicates mapping an
unrecognized keep value raises ValueError at the first group, before
any deletion: the error carries the untouched filesystem. (On an empty
mapping the per-group loop never runs, so no error is raised and
nothing is deleted either way.) -/
theorem c7_invalid_keep_fails_before_deletion (fs : DelFS) (g : Bytes × List String)
    (rest : List (Bytes × List String)) (keep : String) (dry_run : Bool)
    (h1 : keep ≠ "first") (h2 : keep ≠ "last")
    (h3 : keep ≠ "shortest_path") (h4 : keep ≠ "longest_path") :
    remove_duplicates fs (g :: rest) keep dry_run =
      Except.error ("Invalid keep strategy: " ++ keep, fs) := by
  simp only [remove_duplicates, run_groups, process_group, select_keep, h1, h2, h3, h4,
    if_false]

/-- Witness for the amended C7. -/
theorem c7_witness :
    remove_duplicates exDelFS (([7, 8], [("x/a"), ("x/b")]) :: []) ("keep_none") true =
      Except.error ("Invalid keep strategy: " ++ ("keep_none"), exDelFS) :=
  c7_invalid_keep_fails_before_deletion exDelFS (([7, 8], [("x/a"), ("x/b")])) []
    ("keep_none") true (by decide) (by decide) (by decide) (by decide)

/-- Counterexample to C7 as stated: with an empty duplicates mapping an
unrecognized keep value does not fail at all: the keep check sits
inside the per-group loop, which never runs, so the call returns an
empty list instead of an error. -/
theorem c7_counterexample :
    remove_duplicates exDelFS [] ("not_a_policy") false =
      Except.ok (RState.mk exDelFS [] []) :=
  rfl

/-- Claim C8: no file below the minimum size appears in any returned
group: every member path of every group names on-disk content of at
least min_size bytes. -/
theorem c8_small_files_excluded (fs : FileSystem) (min_size : Nat)
    (hnd : (fs.entries.map FSEntry.path).Nodup)
    (g : Bytes × List String) (hg : g ∈ find_duplicates fs min_size)
    (p : String) (hp : p ∈ g.2) :
    (lookupContent fs p).isSome = true ∧
      min_size ≤ ((lookupContent fs p).getD []).length := by
  obtain ⟨-, hall⟩ := find_duplicates_spec fs min_size hg
  obtain ⟨e, he, -, -, -, hsz, hpe, -⟩ := hall p hp
  subst hpe
  rw [lookupContent_of_mem fs hnd he]
  exact ⟨rfl, hsz⟩

/-- Witness for C8. -/
theorem c8_witness :
    (lookupContent exScanFS ("x/a")).isSome = true ∧
      2 ≤ ((lookupContent exScanFS ("x/a")).getD []).length :=
  c8_small_files_excluded exScanFS 2 (by decide)
    (([7, 8], [("x/a"), ("x/b")])) (by decide) ("x/a") (by decide)

/-- Claim C9: no returned group spans files of different exact byte
size: any two member paths of one group name content of equal length. -/
theorem c9_group_members_same_size (fs : FileSystem) (min_size : Nat)
    (hnd : (fs.entries.map FSEntry.path).Nodup)
    (g : Bytes × List String) (hg : g ∈ find_duplicates fs min_size)
    (p : String) (hp : p ∈ g.2) (q : String) (hq : q ∈ g.2) :
    (lookupContent fs p).isSome = true ∧
      ((lookupContent fs p).getD []).length = ((lookupContent fs q).getD []).length := by
  obtain ⟨-, hall⟩ := find_duplicates_spec fs min_size hg
  obtain ⟨e, he, -, -, -, -, hpe, hde⟩ := hall p hp
  obtain ⟨e2, he2, -, -, -, -, hqe, hde2⟩ := hall q hq
  subst hpe
  subst hqe
  rw [lookupContent_of_mem fs hnd he, lookupContent_of_mem fs hnd he2]
  refine ⟨rfl, ?_⟩
  rw [show e.content = e2.content from hde.symm.trans hde2]

/-- Witness for C9. -/
theorem c9_witness :
    (lookupContent exScanFS ("x/a")).isSome = true ∧
      ((lookupContent exScanFS ("x/a")).getD []).length =
        ((lookupContent exScanFS ("x/b")).getD []).length :=
  c9_group_members_same_size exScanFS 1 (by decide)
    (([7, 8], [("x/a"), ("x/b")])) (by decide) ("x/a") (by decide) ("x/b") (by decide)

/-- Claim C10: remove_duplicates called with the dry_run argument
omitted runs under the declared default dry_run=True, so by default no
file is deleted: the filesystem comes back unchanged and only the
candidate paths are reported. -/
theorem c10_default_is_dry_run (fs : DelFS) (dups : List (Bytes × List String))
    (keep : String) (r : RState)
    (h : remove_duplicates_default_dry fs dups keep = Except.ok r) :
    r.fs = fs ∧ r.failures = [] ∧
      r.deleted = dups.flatMap (fun g => group_candidates keep g.2) := by
  have hr := run_groups_dry keep dups (RState.mk fs [] []) r h
  rw [hr]
  exact ⟨rfl, rfl, rfl⟩

/-- Witness for C10, with the keep argument set to last. -/
theorem c10_witness :
    exDryLastR.fs = exDelFS ∧ exDryLastR.failures = [] ∧
      exDryLastR.deleted = exDups.flatMap (fun g => group_candidates ("last") g.2) :=
  c10_default_is_dry_run exDelFS exDups ("last") exDryLastR rfl
